import Mathlib

/-!
# Verification of the clue-hunt game logic (`game.js`)

Shallow embedding of the seed-to-clue derivation pipeline and the
validation state machine of the clue-hunt page:

* `seedToInt` — FNV-style fold of the seed string into a 32-bit integer.
  JavaScript evaluates `n += (n<<1)+(n<<4)+(n<<7)+(n<<8)+(n<<24)` with
  signed 32-bit shift results added exactly in float64 and then masks with
  `>>> 0`; each signed term differs from the corresponding unsigned
  `(n * 2^k) % 2^32` by a multiple of `2^32`, so after the final
  `% 2^32` the unsigned formulation below is exact.  `charCodeAt` is
  modelled by `Char.toNat` (exact for seeds made of Basic Multilingual
  Plane characters, in particular the base-36 seeds the page generates).
* `xsStep` — one xorshift32 update (`x^=x<<13; x^=x>>>17; x^=x<<5`, each
  masked to 32 bits).  `>>> 0` is the identity on values `< 2^32`, and
  the JavaScript int32/uint32 reinterpretation does not change the 32-bit
  pattern, so plain `Nat` xor with explicit `% 2^32` masks is exact.
* `rngRet` — the float `x / 0xFFFFFFFF` returned by each PRNG call,
  modelled as the exact rational.  For the index/offset computations
  `Math.floor(rand() * n)` the exact rational floor agrees with the
  float64 evaluation: away from integer products the distance of
  `x*n/0xFFFFFFFF` to the nearest integer is at least `1/0xFFFFFFFF`,
  far above the float64 rounding error, and at the finitely many exact
  integer products (multiples of `0xFFFFFFFF/gcd`) the float64 result
  was checked to round back to the integer for the multipliers 26–29
  and 35 used here.  (Colour values, multiplier `0xFFFFFF`, could in
  principle differ by one unit at 255 exceptional states; no theorem
  below depends on a colour at such a state.)
-/

namespace ClueHunt

/-- `2^32`, the modulus of all 32-bit masking (`>>> 0`). -/
def W32 : ℕ := 4294967296

/-- `0xFFFFFFFF`, the divisor in `rand()`'s `x / 0xFFFFFFFF`. -/
def MAXU : ℕ := 4294967295

/-- The static word list `WORDS` from `game.js`. -/
def WORDS : List String :=
  ["ALPHA", "BRAVO", "CHARLIE", "DELTA", "ECHO", "FOXTROT", "GOLF", "HOTEL",
   "INDIA", "JULIET", "KILO", "LIMA", "MIKE", "NOVEMBER", "OSCAR", "PAPA",
   "QUEBEC", "ROMEO", "SIERRA", "TANGO", "UNIFORM", "VICTOR", "WHISKEY",
   "XRAY", "YANKEE", "ZULU", "PEN", "KEY", "GOLD", "STEEL", "BRIDGE",
   "RIVER", "JOIN", "PLACE", "STEEP"]

/-- `CLUE_COUNT = 10` from `game.js`. -/
def CLUE_COUNT : ℕ := 10

/-- `totalCells = 8 * 4` from `game.js`. -/
def totalCells : ℕ := 32

/-- One xorshift32 update:
`x ^= x << 13; x >>>= 0; x ^= x >>> 17; x >>>= 0; x ^= x << 5; x >>>= 0`. -/
def xsStep (x : ℕ) : ℕ :=
  let x1 := x ^^^ (x * 8192 % W32)
  let x2 := x1 ^^^ (x1 / 131072)
  x2 ^^^ (x2 * 32 % W32)

/-- `let x = seed >>> 0` — the initial PRNG state from `xorshift32(seed)`. -/
def xs32Init (seed : ℕ) : ℕ := seed % W32

/-- The PRNG state after `n` calls, starting from state `x`. -/
def xsIter (x : ℕ) : ℕ → ℕ
  | 0 => x
  | n + 1 => xsStep (xsIter x n)

/-- The value `x / 0xFFFFFFFF` returned by a PRNG call whose updated state
is `x`, as an exact rational. -/
def rngRet (x : ℕ) : ℚ := (x : ℚ) / (MAXU : ℚ)

/-- `Math.floor(rand() * n)` where the call's updated state is `x`:
the exact value of `⌊x / 0xFFFFFFFF * n⌋`, kept in `ℕ` so that it is
kernel-computable (see `drawIdx_eq_floor` for the floor characterisation). -/
def drawIdx (x n : ℕ) : ℕ := x * n / MAXU

/-- `seedToInt` from `game.js`: FNV offset basis `2166136261`, then for each
character XOR in its code and apply the shift-add mix, masked to 32 bits. -/
def seedToInt (s : String) : ℕ :=
  s.toList.foldl
    (fun n c =>
      let m := n ^^^ c.toNat
      (m + m * 2 % W32 + m * 16 % W32 + m * 128 % W32 + m * 256 % W32 +
        m * 16777216 % W32) % W32)
    2166136261

/-- The clue-selection loop from `game.js`:
`for i in 0..count-1: idx = Math.floor(rand() * WORDS.length); clues.push(WORDS[idx])`.
`WORDS[idx]` is `undefined` when `idx` is out of range, modelled as `none`.
Returns the clue list together with the PRNG state after the loop. -/
def selectClues : ℕ → ℕ → List (Option String) × ℕ
  | 0, x => ([], x)
  | n + 1, x =>
    let x' := xsStep x
    let idx := drawIdx x' WORDS.length
    (WORDS.get? idx :: (selectClues n x').1, (selectClues n x').2)

/-- `charToken` from `game.js`: map a character to its visible token.
`chars[j]` being `undefined` (or the falsy `''`, which a one-character
string never is) is the `if (!ch) return '.'` branch, modelled by `none`.
The comparisons `c >= 'A' && c <= 'Z'` are JavaScript string comparisons
on one-character strings, i.e. code-unit comparisons. -/
def charToken : Option Char → Char
  | none => '.'
  | some ch =>
    let c := ch.toUpper
    if 'A' ≤ c ∧ c ≤ 'Z' then c
    else if c = '-' then '-'
    else '.'

/-- One placement-mapping record `{word, start, len}` from `game.js`. -/
structure Entry where
  word : String
  start : ℕ
  len : ℕ
deriving Repr, DecidableEq

/-- A grid cell: `none` if no `--t`/`--c` properties were ever set, otherwise
the last written (token, colour) pair.  The four `setProperty` writes of one
loop iteration all derive from that pair (`--t` is the token, `--c` and the
background gradient are the colour, `--s` is always `'0'`). -/
abbrev Cell := Option (Char × ℕ)

/-- The 32-element cell array. -/
abbrev Grid := List Cell

/-- The freshly created cell array: 32 cells, no properties set. -/
def grid0 : Grid := List.replicate totalCells none

/-- The inner placement loop `for (let j = 0; j < len; j++)` of `game.js`,
iterated over the list of offsets `j`.  `cells[start + j]` being `undefined`
would make `cell.style.setProperty` throw, modelled by `none` (the colour for
that cell is drawn after the first `setProperty`, hence after the would-be
throw).  Returns the updated grid and PRNG state. -/
def placeCells (chars : List Char) (start : ℕ) :
    List ℕ → ℕ → Grid → Option (Grid × ℕ)
  | [], x, g => some (g, x)
  | j :: js, x, g =>
    match g.get? (start + j) with
    | none => none
    | some _ =>
      let token := charToken (chars.get? j)
      let x' := xsStep x
      let color := drawIdx x' 16777215
      placeCells chars start js x' (g.set (start + j) (some (token, color)))

/-- One iteration of the outer placement loop of `game.js`: split the word,
cap the visible length at 6, draw the start offset
`Math.floor(rand() * (totalCells - len))`, record the mapping entry, then
write the `len` cells. -/
def placeOneWord (w : String) (x : ℕ) (g : Grid) : Option (Entry × Grid × ℕ) :=
  let chars := w.toList
  let len := min chars.length 6
  let x1 := xsStep x
  let start := drawIdx x1 (totalCells - len)
  match placeCells chars start (List.range' 0 len) x1 g with
  | none => none
  | some (g', x') => some (⟨w, start, len⟩, g', x')

/-- The outer placement loop of `game.js` over the selected clues.  A clue
that is `undefined` (out-of-range selection index) makes `w.split('')` throw
a `TypeError`, modelled by `none`. -/
def placeFrom : List (Option String) → ℕ → Grid → Option (List Entry × Grid × ℕ)
  | [], x, g => some ([], g, x)
  | none :: _, _, _ => none
  | some w :: ws, x, g =>
    match placeOneWord w x g with
    | none => none
    | some (e, g', x') =>
      match placeFrom ws x' g' with
      | none => none
      | some (m, g'', xf) => some (e :: m, g'', xf)

/-- The visible length `Math.min(w.split('').length, 6)` of a word. -/
def wordLen (w : String) : ℕ := min w.toList.length 6

/-- PRNG state after processing one word in the placement loop: one start
draw plus one colour draw per visible character. -/
def stateAfterWord (w : String) (x : ℕ) : ℕ := xsIter x (wordLen w + 1)

/-- PRNG state at which the placement loop starts processing word `j`
(counting from 0), when the loop was entered at state `x`. -/
def stateBeforeWord : List String → ℕ → ℕ → ℕ
  | _, x, 0 => x
  | [], x, _ + 1 => x
  | w :: ws, x, j + 1 => stateBeforeWord ws (stateAfterWord w x) j

/-- The (token, colour) pair that the placement loop writes for character
`k` of word `w` when it starts processing `w` at PRNG state `x`:
the token of `w`'s `k`-th character, and the colour of the `(k+1)`-th draw
after the start draw. -/
def writeAt (w : String) (x : ℕ) (k : ℕ) : Char × ℕ :=
  (charToken (w.toList.get? k), drawIdx (xsIter (xsStep x) (k + 1)) 16777215)

/-- `e` writes cell `c`: `c` lies in `[e.start, e.start + e.len)`. -/
def covers (e : Entry) (c : ℕ) : Prop := e.start ≤ c ∧ c < e.start + e.len

instance (e : Entry) (c : ℕ) : Decidable (covers e c) := by
  unfold covers; infer_instance

/-- The whole derivation pipeline of `game.js` as run at load time:
`rand = xorshift32(seedToInt(seed))`, then the 10 clue draws, then grid
placement on the fresh 32-cell grid.  Placement is `none` when the run
throws (an `undefined` clue word). -/
def deriveAll (s : String) : List (Option String) × Option (List Entry × Grid × ℕ) :=
  let x0 := xs32Init (seedToInt s)
  let (cs, x1) := selectClues CLUE_COUNT x0
  (cs, placeFrom cs x1 grid0)

/-- The character class kept by `norm`'s regular expression `[^A-Za-z0-9\-]`
(everything else is removed). -/
def keepChar (c : Char) : Bool :=
  c.isAlpha || c.isDigit || c = '-'

/-- `norm` from `game.js`:
`(s || '').toString().replace(/[^A-Za-z0-9\-]/g, '').toUpperCase()`.
The per-character replace-then-uppercase equals filtering then mapping
ASCII uppercase over the characters (`toUpperCase` acts per character and
sends the kept ASCII characters to their ASCII uppercase forms). -/
def norm (s : String) : String :=
  String.mk ((s.toList.filter keepChar).map Char.toUpper)

/-- The mutable UI state of `game.js` that the click handlers read and
write: the step counter `current`, the two text inputs, whether the final
input/button have been enabled, and whether the success message was shown
(the spec's `Solved` state). -/
structure GameState where
  current : ℕ
  answerVal : String
  finalVal : String
  finalEnabled : Bool
  solved : Bool
deriving Repr, DecidableEq

/-- State right after `game.js` has run: `let current = 1`, empty inputs,
final input/button disabled, no success message. -/
def initState : GameState := ⟨1, "", "", false, false⟩

/-- The user-visible signals emitted by the handlers: the
`'Please enter an answer.'` hint, the `'Correct — …'` log, the
`'Incorrect.…'` log/hint, `'FINAL: success'`, `'FINAL: incorrect'`, or
nothing. -/
inductive Signal where
  | quiet
  | missingInput
  | correctStep
  | incorrectAnswer
  | finalSuccess
  | finalIncorrect
deriving Repr, DecidableEq

/-- The `submitBtn` click handler of `game.js`.  `clues[current - 1]` that
is `undefined` (index out of range) satisfies `(s || '') = ''` inside
`norm`, modelled by `getD ""`.  On a match the counter advances, the input
is cleared, and when the new counter exceeds `CLUE_COUNT` the final
input/button are enabled. -/
def submit (clues : List String) (st : GameState) : GameState × Signal :=
  let val := norm st.answerVal
  let expected := norm ((clues.get? (st.current - 1)).getD "")
  if val = "" then (st, .missingInput)
  else if val = expected then
    let c' := st.current + 1
    if CLUE_COUNT < c' then
      ({ st with current := c', answerVal := "", finalEnabled := true },
        .correctStep)
    else
      ({ st with current := c', answerVal := "" }, .correctStep)
  else (st, .incorrectAnswer)

/-- Modelled from the spec: the page markup (`index.html`, not among the
sources) creates `finalInput` and `finalBtn` disabled, and `game.js` only
enables them once the step counter passes `CLUE_COUNT`; a disabled button
fires no click events, so the final handler runs only once the final phase
was entered. -/
def finalActive (st : GameState) : Bool := st.finalEnabled

/-- The `finalBtn` click handler of `game.js` (guarded by `finalActive`):
compare the normalised final input with the normalised
`clues.join('-')`; on a match show the success message (`Solved`),
otherwise show the retry message and change nothing. -/
def submitFinal (clues : List String) (st : GameState) : GameState × Signal :=
  if finalActive st then
    let given := norm st.finalVal
    let expected := norm (String.intercalate "-" clues)
    if given = expected then ({ st with solved := true }, .finalSuccess)
    else (st, .finalIncorrect)
  else (st, .quiet)

/-- The discrete player actions the page reacts to: editing either input,
the three buttons, and the hint button (`hintBtn` only reads `mapping` and
logs — `if (!m) return` — so it never changes the state).  `regen` reloads
the page with a fresh seed, which re-runs the whole pipeline and resets the
UI state. -/
inductive Event where
  | setAnswer (s : String)
  | setFinal (s : String)
  | submitStep
  | submitFinalStep
  | hintStep
  | regen

/-- One event-handler invocation of `game.js`. -/
def stepEv (clues : List String) (st : GameState) : Event → GameState × Signal
  | .setAnswer s => ({ st with answerVal := s }, .quiet)
  | .setFinal s => ({ st with finalVal := s }, .quiet)
  | .submitStep => submit clues st
  | .submitFinalStep => submitFinal clues st
  | .hintStep => (st, .quiet)
  | .regen => (initState, .quiet)

/-- The states the page can be in after any sequence of player actions. -/
inductive Reachable (clues : List String) : GameState → Prop where
  | init : Reachable clues initState
  | next (st : GameState) (e : Event) (h : Reachable clues st) :
      Reachable clues (stepEv clues st e).1

end ClueHunt

namespace ClueHunt

/-! ## Basic lemmas about the PRNG and the draw arithmetic -/

/-- `Math.floor(rand() * n)` evaluated exactly: the rational floor of
`x / 0xFFFFFFFF * n` is the natural-number division `x * n / 0xFFFFFFFF`. -/
theorem drawIdx_eq_floor (x n : ℕ) : (drawIdx x n : ℤ) = ⌊rngRet x * (n : ℚ)⌋ := by
  unfold drawIdx rngRet
  rw [div_mul_eq_mul_div, ← Nat.cast_mul, Rat.floor_natCast_div_natCast]
  exact Int.ofNat_ediv _ _

theorem le_MAXU_of_lt_W32 {x : ℕ} (hx : x < W32) : x ≤ MAXU := by
  unfold W32 at hx; unfold MAXU; omega

theorem xsStep_lt {x : ℕ} (hx : x < W32) : xsStep x < W32 := by
  have h32 : W32 = 2 ^ 32 := by decide
  unfold xsStep
  rw [h32] at hx ⊢
  have h1 : x ^^^ (x * 8192 % W32) < 2 ^ 32 :=
    Nat.xor_lt_two_pow hx (by rw [← h32]; exact Nat.mod_lt _ (by decide))
  have h2 : (x ^^^ (x * 8192 % W32)) ^^^ (x ^^^ (x * 8192 % W32)) / 131072 < 2 ^ 32 :=
    Nat.xor_lt_two_pow h1 (Nat.lt_of_le_of_lt (Nat.div_le_self _ _) h1)
  exact Nat.xor_lt_two_pow h2 (by rw [← h32]; exact Nat.mod_lt _ (by decide))

theorem xsIter_lt {x : ℕ} (hx : x < W32) (n : ℕ) : xsIter x n < W32 := by
  induction n with
  | zero => exact hx
  | succ n ih => exact xsStep_lt ih

theorem xs32Init_lt (seed : ℕ) : xs32Init seed < W32 :=
  Nat.mod_lt _ (by decide)

theorem xsIter_succ_left (x n : ℕ) : xsIter (xsStep x) n = xsIter x (n + 1) := by
  induction n with
  | zero => rfl
  | succ n ih => show xsStep _ = _; rw [ih]; rfl

theorem drawIdx_le {x : ℕ} (n : ℕ) (hx : x ≤ MAXU) : drawIdx x n ≤ n := by
  unfold drawIdx
  calc x * n / MAXU ≤ MAXU * n / MAXU :=
        Nat.div_le_div_right (Nat.mul_le_mul_right n hx)
    _ = n := by rw [Nat.mul_div_cancel_left _ (by decide : 0 < MAXU)]

theorem drawIdx_lt {x n : ℕ} (hx : x < MAXU) (hn : 0 < n) : drawIdx x n < n := by
  unfold drawIdx
  rw [Nat.div_lt_iff_lt_mul (by decide : 0 < MAXU)]
  calc x * n < MAXU * n := (Nat.mul_lt_mul_right hn).mpr hx
    _ = n * MAXU := Nat.mul_comm _ _

theorem rngRet_nonneg (x : ℕ) : 0 ≤ rngRet x :=
  div_nonneg (Nat.cast_nonneg x) (Nat.cast_nonneg MAXU)

theorem rngRet_le_one {x : ℕ} (hx : x ≤ MAXU) : rngRet x ≤ 1 := by
  unfold rngRet
  rw [div_le_one (by unfold MAXU; norm_num)]
  exact_mod_cast hx

theorem rngRet_eq_one_iff (x : ℕ) : rngRet x = 1 ↔ x = MAXU := by
  unfold rngRet
  rw [div_eq_one_iff_eq (by unfold MAXU; norm_num)]
  exact_mod_cast Nat.cast_inj (R := ℚ)

/-! ## Lemmas about the clue selection loop -/

theorem selectClues_length (n x : ℕ) : (selectClues n x).1.length = n := by
  induction n generalizing x with
  | zero => rfl
  | succ n ih => simp [selectClues, ih]

theorem selectClues_state (n x : ℕ) : (selectClues n x).2 = xsIter x n := by
  induction n generalizing x with
  | zero => rfl
  | succ n ih => simp [selectClues, ih, xsIter_succ_left]

theorem selectClues_get (n x i : ℕ) (hi : i < n) :
    (selectClues n x).1.get? i =
      some (WORDS.get? (drawIdx (xsIter x (i + 1)) WORDS.length)) := by
  induction n generalizing x i with
  | zero => omega
  | succ n ih =>
    cases i with
    | zero => simp [selectClues, xsIter]
    | succ i =>
      show (selectClues n (xsStep x)).1.get? i = _
      rw [ih (xsStep x) i (by omega), xsIter_succ_left]

/-! ## Claim C1: determinism of the whole derivation pipeline -/

/-- Claim C1: the whole derivation pipeline (`seedToInt` hash, xorshift32
PRNG, clue selection, grid placement with colours) is a pure function of the
seed string: re-running it on the same seed yields the identical clue
sequence and the identical placement result (same words, offsets, lengths
and colours, in the same order). -/
theorem C1_pipeline_deterministic (s t : String) (h : s = t) :
    deriveAll s = deriveAll t := by
  rw [h]

/-- Witness for C1 at the concrete seed `"test1"`. -/
theorem C1_pipeline_deterministic_witness :
    deriveAll "test1" = deriveAll "test1" :=
  C1_pipeline_deterministic "test1" "test1" rfl

/-! ## Claim C2: the PRNG's returned values -/

/-- Claim C2 (counterexample): the claim says every returned value lies in
`[0,1)`.  For the 32-bit seed `1584200935` the first call's updated state is
`0xFFFFFFFF`, so the call returns `0xFFFFFFFF / 0xFFFFFFFF = 1`, which is
not `< 1`. -/
theorem C2_rand_can_return_one :
    xsIter (xs32Init 1584200935) 1 = MAXU ∧
      rngRet (xsIter (xs32Init 1584200935) 1) = 1 ∧
      ¬ rngRet (xsIter (xs32Init 1584200935) 1) < 1 := by
  have h : xsIter (xs32Init 1584200935) 1 = MAXU := by decide
  have hM : (MAXU : ℚ) ≠ 0 := by unfold MAXU; norm_num
  have he : rngRet (xsIter (xs32Init 1584200935) 1) = 1 := by
    rw [h]; exact div_self hM
  exact ⟨h, he, by rw [he]; exact lt_irrefl 1⟩

/-- Claim C2 (amended): for every seed and every call count `n ≥ 1`, the
`n`-th call applies the three masked xorshift steps to the previous state
and returns `x / 0xFFFFFFFF`; that value lies in the closed interval
`[0,1]`, and it equals `1` exactly when the updated state is `0xFFFFFFFF`
(so the claimed half-open range `[0,1)` holds except at that one state). -/
theorem C2_rand_range_amended (seed n : ℕ) (hn : 1 ≤ n) :
    xsIter (xs32Init seed) n = xsStep (xsIter (xs32Init seed) (n - 1)) ∧
      0 ≤ rngRet (xsIter (xs32Init seed) n) ∧
      rngRet (xsIter (xs32Init seed) n) ≤ 1 ∧
      (rngRet (xsIter (xs32Init seed) n) = 1 ↔
        xsIter (xs32Init seed) n = MAXU) := by
  obtain ⟨m, rfl⟩ : ∃ m, n = m + 1 := ⟨n - 1, (Nat.succ_pred_eq_of_pos hn).symm⟩
  have hlt : xsIter (xs32Init seed) (m + 1) < W32 :=
    xsIter_lt (xs32Init_lt seed) (m + 1)
  refine ⟨rfl, rngRet_nonneg _, rngRet_le_one (le_MAXU_of_lt_W32 hlt), ?_⟩
  exact rngRet_eq_one_iff _

/-- Witness for C2 (amended) at seed `1`, first call. -/
theorem C2_rand_range_amended_witness :
    xsIter (xs32Init 1) 1 = xsStep (xsIter (xs32Init 1) 0) ∧
      0 ≤ rngRet (xsIter (xs32Init 1) 1) ∧
      rngRet (xsIter (xs32Init 1) 1) ≤ 1 ∧
      (rngRet (xsIter (xs32Init 1) 1) = 1 ↔ xsIter (xs32Init 1) 1 = MAXU) :=
  C2_rand_range_amended 1 1 (by decide)

/-! ## Claim C3: the clue selection loop -/

/-- Claim C3 (counterexample): the claim says every entry of the clue
sequence is an element of the word list.  For the real seed string
`"mz4fem"` the eighth selection draw's state is `0xFFFFFFFF`, the drawn
index is `floor(1 * 35) = 35`, and `WORDS[35]` is `undefined` (`none`), so
entry 7 of the clue sequence is not a word of the list. -/
theorem C3_selection_undefined_entry :
    (deriveAll "mz4fem").1.get? 7 = some none ∧
      none ∈ (deriveAll "mz4fem").1 := by
  constructor
  · decide
  · decide

/-- Claim C3 (amended): the selection performs exactly 10 iterations, each
consuming one PRNG draw and computing `floor(r * WORDS.length)`; provided
no draw among the first 10 returns exactly `1` (state `0xFFFFFFFF`), the
resulting sequence is an ordered list of exactly 10 entries each of which
is an element of the word list (duplicates allowed).  At a draw that does
return `1` the code pushes `WORDS[35]`, i.e. `undefined`. -/
theorem C3_selection_amended (x : ℕ) (hx : x < W32)
    (hM : ∀ i, 1 ≤ i → i ≤ CLUE_COUNT → xsIter x i ≠ MAXU) :
    (selectClues CLUE_COUNT x).1.length = CLUE_COUNT ∧
      (selectClues CLUE_COUNT x).2 = xsIter x CLUE_COUNT ∧
      (∀ i, i < CLUE_COUNT →
        (selectClues CLUE_COUNT x).1.get? i =
          some (WORDS.get? (drawIdx (xsIter x (i + 1)) WORDS.length))) ∧
      ∀ o ∈ (selectClues CLUE_COUNT x).1, ∃ w, w ∈ WORDS ∧ o = some w := by
  refine ⟨selectClues_length _ _, selectClues_state _ _,
    fun i hi => selectClues_get _ _ _ hi, ?_⟩
  intro o ho
  obtain ⟨i, hio⟩ := List.mem_iff_get?.mp ho
  have hi : i < CLUE_COUNT := by
    by_contra hge
    rw [List.get?_eq_none.mpr (by rw [selectClues_length]; omega)] at hio
    exact Option.noConfusion hio
  rw [selectClues_get _ _ _ hi] at hio
  have hs : xsIter x (i + 1) < MAXU := by
    have h1 : xsIter x (i + 1) < W32 := xsIter_lt hx (i + 1)
    have h2 : xsIter x (i + 1) ≠ MAXU := hM (i + 1) (by omega) (by omega)
    have := le_MAXU_of_lt_W32 h1
    omega
  have hidx : drawIdx (xsIter x (i + 1)) WORDS.length < WORDS.length :=
    drawIdx_lt hs (by decide)
  injection hio with hio
  refine ⟨WORDS.get ⟨_, hidx⟩, List.get_mem _ _ _, ?_⟩
  rw [← hio, List.get?_eq_get hidx]

/-! ## Lemmas about the grid placement loop -/

theorem stateBeforeWord_zero (ws : List String) (x : ℕ) :
    stateBeforeWord ws x 0 = x := by
  cases ws <;> rfl

theorem stateBeforeWord_succ (w : String) (ws : List String) (x i : ℕ) :
    stateBeforeWord (w :: ws) x (i + 1) =
      stateBeforeWord ws (stateAfterWord w x) i := rfl

theorem stateBeforeWord_lt {x : ℕ} (hx : x < W32) (ws : List String) (i : ℕ) :
    stateBeforeWord ws x i < W32 := by
  induction ws generalizing x i with
  | nil => cases i <;> exact hx
  | cons w ws ih =>
    cases i with
    | zero => exact hx
    | succ i => exact ih (xsIter_lt hx _) i

theorem wordLen_le_six (w : String) : wordLen w ≤ 6 :=
  Nat.min_le_right _ _

theorem placeCells_spec (chars : List Char) (start : ℕ) :
    ∀ (js : List ℕ) (x : ℕ) (g : Grid),
      (∀ j ∈ js, start + j < g.length) →
      ∃ g', placeCells chars start js x g = some (g', xsIter x js.length) ∧
        g'.length = g.length := by
  intro js
  induction js with
  | nil => exact fun x g _ => ⟨g, rfl, rfl⟩
  | cons j js ih =>
    intro x g hin
    have hj : start + j < g.length := hin j (List.mem_cons_self _ _)
    obtain ⟨g', hg', hlen⟩ :=
      ih (xsStep x)
        (g.set (start + j)
          (some (charToken (chars.get? j), drawIdx (xsStep x) 16777215)))
        (by
          intro k hk
          rw [List.length_set]
          exact hin k (List.mem_cons_of_mem _ hk))
    refine ⟨g', ?_, by rw [hlen, List.length_set]⟩
    have hred : placeCells chars start (j :: js) x g =
        placeCells chars start js (xsStep x)
          (g.set (start + j)
            (some (charToken (chars.get? j), drawIdx (xsStep x) 16777215))) := by
      simp only [placeCells, List.get?_eq_get hj]
    rw [hred, hg', List.length_cons, xsIter_succ_left]

theorem placeOneWord_spec (w : String) (x : ℕ) (g : Grid)
    (hx : x < W32) (hg : g.length = totalCells) :
    ∃ g', placeOneWord w x g =
        some (⟨w, drawIdx (xsStep x) (totalCells - wordLen w), wordLen w⟩, g',
          stateAfterWord w x) ∧
      g'.length = totalCells ∧
      placeCells w.toList (drawIdx (xsStep x) (totalCells - wordLen w))
        (List.range' 0 (wordLen w)) (xsStep x) g =
        some (g', stateAfterWord w x) := by
  have hxs : xsStep x ≤ MAXU := le_MAXU_of_lt_W32 (xsStep_lt hx)
  have hstart : drawIdx (xsStep x) (totalCells - wordLen w) ≤
      totalCells - wordLen w := drawIdx_le _ hxs
  have hlen6 : wordLen w ≤ 6 := wordLen_le_six w
  obtain ⟨g', hg', hglen⟩ :=
    placeCells_spec w.toList
      (drawIdx (xsStep x) (totalCells - wordLen w))
      (List.range' 0 (wordLen w)) (xsStep x) g
      (by
        intro j hj
        obtain ⟨i, hi, rfl⟩ := List.mem_range'.mp hj
        have hj' : 1 * i < wordLen w := by omega
        rw [hg]
        unfold totalCells at hstart ⊢
        omega)
  have hg'' : placeCells w.toList
      (drawIdx (xsStep x) (totalCells - wordLen w))
      (List.range' 0 (wordLen w)) (xsStep x) g =
      some (g', stateAfterWord w x) := by
    rw [hg', List.length_range', xsIter_succ_left]
    rfl
  refine ⟨g', ?_, by rw [hglen, hg], hg''⟩
  show placeOneWord w x g = _
  unfold placeOneWord
  show (match placeCells w.toList
      (drawIdx (xsStep x) (totalCells - min w.toList.length 6)) _ _ _ with
    | none => none
    | some (g', x') => some (_, g', x')) = _
  rw [show min w.toList.length 6 = wordLen w from rfl, hg'']

theorem placeFrom_spec (ws : List String) :
    ∀ (x : ℕ) (g : Grid), x < W32 → g.length = totalCells →
      ∃ m g' xf, placeFrom (ws.map some) x g = some (m, g', xf) ∧
        m.length = ws.length ∧ g'.length = totalCells ∧
        ∀ i (hi : i < ws.length),
          m.get? i = some ⟨ws.get ⟨i, hi⟩,
            drawIdx (xsStep (stateBeforeWord ws x i))
              (totalCells - wordLen (ws.get ⟨i, hi⟩)),
            wordLen (ws.get ⟨i, hi⟩)⟩ := by
  induction ws with
  | nil =>
    intro x g _ hg
    exact ⟨[], g, x, rfl, rfl, hg, fun i hi => absurd hi (by simp)⟩
  | cons w ws ih =>
    intro x g hx hg
    obtain ⟨g1, h1, hg1, -⟩ := placeOneWord_spec w x g hx hg
    obtain ⟨m, g', xf, hp, hm, hg', hformula⟩ :=
      ih (stateAfterWord w x) g1 (xsIter_lt hx _) hg1
    refine ⟨(⟨w, drawIdx (xsStep x) (totalCells - wordLen w), wordLen w⟩ :
        Entry) :: m, g', xf, ?_, by simp [hm], hg', ?_⟩
    · show placeFrom (some w :: ws.map some) x g = _
      simp only [placeFrom, h1, hp]
    · intro i hi
      cases i with
      | zero =>
        simp only [List.get?, stateBeforeWord_zero]
        rfl
      | succ i =>
        show m.get? i = _
        rw [hformula i (by simpa using hi), stateBeforeWord_succ]
        rfl

/-! ## Claim C4: placement bounds -/

/-- Claim C4 (counterexample): the claim says every start offset lies in the
half-open range `[0, 32 - len)`.  For the real seed string `"4w6fpv"` the
start draw of the second placed word `"MIKE"` (length 4) returns exactly
`1`, so its recorded start offset is `28 = 32 - 4`, which is not
`< 32 - 4`. -/
theorem C4_start_can_reach_bound :
    (deriveAll "4w6fpv").2.map (fun r => r.1.get? 1) =
        some (some ⟨"MIKE", 28, 4⟩) ∧
      ¬ (28 < totalCells - 4) :=
  ⟨by decide, by decide⟩

/-- Claim C4 (amended): for every clue word placed by the grid placement
engine the recorded length is `min(word length, 6) ≤ 6`, and the start
offset lies in the closed range `[0, 32 - len]` (the upper end is reached
exactly when the start draw returns `1`), so `start + len ≤ 32` always
holds and every cell write during placement indexes an existing cell —
placement returns a result (`some …`) rather than crashing on a missing
cell. -/
theorem C4_placement_amended (ws : List String) (x : ℕ) (hx : x < W32) :
    ∃ m g' xf, placeFrom (ws.map some) x grid0 = some (m, g', xf) ∧
      m.length = ws.length ∧
      ∀ e ∈ m, e.len = wordLen e.word ∧ e.len ≤ 6 ∧
        e.start ≤ totalCells - e.len ∧ e.start + e.len ≤ totalCells := by
  obtain ⟨m, g', xf, hp, hm, _, hformula⟩ :=
    placeFrom_spec ws x grid0 hx (by unfold grid0; simp [totalCells])
  refine ⟨m, g', xf, hp, hm, ?_⟩
  intro e he
  obtain ⟨i, hie⟩ := List.mem_iff_get?.mp he
  have hi : i < ws.length := by
    by_contra hge
    rw [List.get?_eq_none.mpr (by omega : m.length ≤ i)] at hie
    exact Option.noConfusion hie
  rw [hformula i hi] at hie
  injection hie with hie
  subst hie
  have hxs : xsStep (stateBeforeWord ws x i) ≤ MAXU :=
    le_MAXU_of_lt_W32 (xsStep_lt (stateBeforeWord_lt hx ws i))
  have h6 : wordLen (ws.get ⟨i, hi⟩) ≤ 6 := wordLen_le_six _
  have hstart := drawIdx_le (totalCells - wordLen (ws.get ⟨i, hi⟩)) hxs
  refine ⟨rfl, h6, hstart, ?_⟩
  show drawIdx (xsStep (stateBeforeWord ws x i))
      (totalCells - wordLen (ws.get ⟨i, hi⟩)) + wordLen (ws.get ⟨i, hi⟩) ≤
      totalCells
  unfold totalCells at hstart ⊢
  omega

/-- Witness for C4 (amended): placing `["ALPHA", "BRAVO"]` from state `1`. -/
theorem C4_placement_amended_witness :
    ∃ m g' xf,
      placeFrom (["ALPHA", "BRAVO"].map some) 1 grid0 = some (m, g', xf) ∧
      m.length = (["ALPHA", "BRAVO"] : List String).length ∧
      ∀ e ∈ m, e.len = wordLen e.word ∧ e.len ≤ 6 ∧
        e.start ≤ totalCells - e.len ∧ e.start + e.len ≤ totalCells :=
  C4_placement_amended ["ALPHA", "BRAVO"] 1 (by decide)

/-! ## Claims C5 and C8: the step-submission handler -/

/-- Claim C5: while playing step `1..10`, a non-empty normalised answer
equal to the normalised clue at index `step - 1` advances the counter by
exactly 1 and clears the input, and the final phase is entered exactly when
the new step exceeds 10; a non-empty normalised answer that differs leaves
the whole state unchanged and emits the incorrect-answer signal. -/
theorem C5_submit_step (clues : List String) (st : GameState)
    (h1 : 1 ≤ st.current) (h2 : st.current ≤ CLUE_COUNT)
    (hplay : st.finalEnabled = false) :
    (norm st.answerVal ≠ "" →
      norm st.answerVal = norm ((clues.get? (st.current - 1)).getD "") →
      (submit clues st).1.current = st.current + 1 ∧
      (submit clues st).1.answerVal = "" ∧
      ((submit clues st).1.finalEnabled = true ↔ CLUE_COUNT < st.current + 1) ∧
      (submit clues st).2 = Signal.correctStep) ∧
    (norm st.answerVal ≠ "" →
      norm st.answerVal ≠ norm ((clues.get? (st.current - 1)).getD "") →
      submit clues st = (st, Signal.incorrectAnswer)) := by
  constructor
  · intro hne heq
    simp only [submit]
    rw [if_neg hne, if_pos heq]
    by_cases hc : CLUE_COUNT < st.current + 1
    · rw [if_pos hc]
      exact ⟨rfl, rfl, by simp [hc], rfl⟩
    · rw [if_neg hc]
      exact ⟨rfl, rfl, by simp [hplay, hc], rfl⟩
  · intro hne hneq
    simp only [submit]
    rw [if_neg hne, if_neg hneq]

/-- Witness for C5: submitting `"alpha"` at step 1 against the clue
`"ALPHA"`. -/
theorem C5_submit_step_witness :
    (norm (GameState.answerVal ⟨1, "alpha", "", false, false⟩) ≠ "" →
      norm (GameState.answerVal ⟨1, "alpha", "", false, false⟩) =
        norm ((["ALPHA"].get? (GameState.current ⟨1, "alpha", "", false, false⟩
          - 1)).getD "") →
      (submit ["ALPHA"] ⟨1, "alpha", "", false, false⟩).1.current =
        GameState.current ⟨1, "alpha", "", false, false⟩ + 1 ∧
      (submit ["ALPHA"] ⟨1, "alpha", "", false, false⟩).1.answerVal = "" ∧
      ((submit ["ALPHA"] ⟨1, "alpha", "", false, false⟩).1.finalEnabled = true ↔
        CLUE_COUNT < GameState.current ⟨1, "alpha", "", false, false⟩ + 1) ∧
      (submit ["ALPHA"] ⟨1, "alpha", "", false, false⟩).2 =
        Signal.correctStep) ∧
    (norm (GameState.answerVal ⟨1, "alpha", "", false, false⟩) ≠ "" →
      norm (GameState.answerVal ⟨1, "alpha", "", false, false⟩) ≠
        norm ((["ALPHA"].get? (GameState.current ⟨1, "alpha", "", false, false⟩
          - 1)).getD "") →
      submit ["ALPHA"] ⟨1, "alpha", "", false, false⟩ =
        (⟨1, "alpha", "", false, false⟩, Signal.incorrectAnswer)) :=
  C5_submit_step ["ALPHA"] ⟨1, "alpha", "", false, false⟩
    (by decide) (by decide) rfl

/-- Claim C8: a step submission whose answer normalises to the empty string
emits the missing-input signal (not the incorrect-answer signal) and leaves
the state unchanged; the outcome does not depend on the clue sequence at
all, so no comparison with the expected clue takes place. -/
theorem C8_missing_input (clues : List String) (st : GameState)
    (h : norm st.answerVal = "") :
    submit clues st = (st, Signal.missingInput) ∧
      ∀ clues2, submit clues2 st = submit clues st := by
  have hfix : ∀ cl : List String, submit cl st = (st, Signal.missingInput) := by
    intro cl
    simp only [submit]
    rw [if_pos h]
  exact ⟨hfix clues, fun clues2 => by rw [hfix clues2, hfix clues]⟩

/-- Witness for C8: an answer of punctuation only normalises to `""`. -/
theorem C8_missing_input_witness :
    submit ["ALPHA"] ⟨1, "?!", "", false, false⟩ =
        (⟨1, "?!", "", false, false⟩, Signal.missingInput) ∧
      ∀ clues2, submit clues2 ⟨1, "?!", "", false, false⟩ =
        submit ["ALPHA"] ⟨1, "?!", "", false, false⟩ :=
  C8_missing_input ["ALPHA"] ⟨1, "?!", "", false, false⟩ (by decide)

/-! ## Claim C6: the final-passphrase handler -/

/-- Claim C6: with the final phase enabled, the final submission shows the
success message (`Solved`) and emits the success signal exactly when the
normalised input equals the normalised hyphen-join of all clue words in
selection order; on a mismatch the state is returned unchanged (still in
the final phase) with the retry signal, and the step counter is unchanged
in all cases (the clue list is an immutable parameter). -/
theorem C6_submit_final (clues : List String) (st : GameState)
    (hen : st.finalEnabled = true) :
    (((submitFinal clues st).1.solved = true ∧
        (submitFinal clues st).2 = Signal.finalSuccess) ↔
      norm st.finalVal = norm (String.intercalate "-" clues)) ∧
    (norm st.finalVal ≠ norm (String.intercalate "-" clues) →
      submitFinal clues st = (st, Signal.finalIncorrect)) ∧
    (submitFinal clues st).1.current = st.current ∧
    (submitFinal clues st).1.finalEnabled = true := by
  simp only [submitFinal, finalActive]
  rw [hen]
  simp only [if_true]
  by_cases h : norm st.finalVal = norm (String.intercalate "-" clues)
  · rw [if_pos h]
    exact ⟨by simp [h], fun hc => absurd h hc, rfl, rfl⟩
  · rw [if_neg h]
    refine ⟨?_, fun _ => rfl, rfl, hen⟩
    simp only [h, iff_false]
    intro ⟨_, hsig⟩
    exact Signal.noConfusion hsig

/-- Witness for C6: final phase with clues `["PEN", "KEY"]` and the input
`"pen-key"`. -/
theorem C6_submit_final_witness :
    (((submitFinal ["PEN", "KEY"] ⟨11, "", "pen-key", true, false⟩).1.solved
          = true ∧
        (submitFinal ["PEN", "KEY"] ⟨11, "", "pen-key", true, false⟩).2 =
          Signal.finalSuccess) ↔
      norm (GameState.finalVal ⟨11, "", "pen-key", true, false⟩) =
        norm (String.intercalate "-" ["PEN", "KEY"])) ∧
    (norm (GameState.finalVal ⟨11, "", "pen-key", true, false⟩) ≠
        norm (String.intercalate "-" ["PEN", "KEY"]) →
      submitFinal ["PEN", "KEY"] ⟨11, "", "pen-key", true, false⟩ =
        (⟨11, "", "pen-key", true, false⟩, Signal.finalIncorrect)) ∧
    (submitFinal ["PEN", "KEY"] ⟨11, "", "pen-key", true, false⟩).1.current =
      GameState.current ⟨11, "", "pen-key", true, false⟩ ∧
    (submitFinal ["PEN", "KEY"] ⟨11, "", "pen-key", true, false⟩).1.finalEnabled
      = true :=
  C6_submit_final ["PEN", "KEY"] ⟨11, "", "pen-key", true, false⟩ rfl

/-! ## Claim C7: reachable-state invariants -/

theorem norm_empty : norm "" = "" := rfl

/-- The inductive invariant of the validation state machine: the counter
stays in `[1, 11]`, the final phase is enabled exactly at counter `11`,
and the success message can only have been shown with the final phase
enabled. -/
theorem reachable_invariant (clues : List String)
    (hlen : clues.length = CLUE_COUNT) (st : GameState)
    (h : Reachable clues st) :
    1 ≤ st.current ∧ st.current ≤ CLUE_COUNT + 1 ∧
      (st.finalEnabled = true ↔ st.current = CLUE_COUNT + 1) ∧
      (st.solved = true → st.finalEnabled = true) := by
  induction h with
  | init => exact ⟨le_refl 1, by decide, by decide, by decide⟩
  | next st e hst ih =>
    obtain ⟨ih1, ih2, ih3, ih4⟩ := ih
    cases e with
    | setAnswer s => exact ⟨ih1, ih2, ih3, ih4⟩
    | setFinal s => exact ⟨ih1, ih2, ih3, ih4⟩
    | hintStep => exact ⟨ih1, ih2, ih3, ih4⟩
    | regen =>
      show 1 ≤ initState.current ∧ initState.current ≤ CLUE_COUNT + 1 ∧
        (initState.finalEnabled = true ↔ initState.current = CLUE_COUNT + 1) ∧
        (initState.solved = true → initState.finalEnabled = true)
      exact ⟨le_refl 1, by decide, by decide, by decide⟩
    | submitStep =>
      show 1 ≤ (submit clues st).1.current ∧
        (submit clues st).1.current ≤ CLUE_COUNT + 1 ∧
        ((submit clues st).1.finalEnabled = true ↔
          (submit clues st).1.current = CLUE_COUNT + 1) ∧
        ((submit clues st).1.solved = true →
          (submit clues st).1.finalEnabled = true)
      simp only [submit]
      by_cases hval : norm st.answerVal = ""
      · rw [if_pos hval]
        exact ⟨ih1, ih2, ih3, ih4⟩
      · rw [if_neg hval]
        by_cases heq : norm st.answerVal =
            norm ((clues.get? (st.current - 1)).getD "")
        · rw [if_pos heq]
          have hne11 : st.current ≠ CLUE_COUNT + 1 := by
            intro h11
            have hnone : clues.get? (st.current - 1) = none :=
              List.get?_eq_none.mpr (by omega)
            rw [hnone] at heq
            exact hval (heq.trans norm_empty)
          by_cases hc : CLUE_COUNT < st.current + 1
          · rw [if_pos hc]
            refine ⟨?_, ?_, ?_, ?_⟩
            · show 1 ≤ st.current + 1
              omega
            · show st.current + 1 ≤ CLUE_COUNT + 1
              omega
            · show true = true ↔ st.current + 1 = CLUE_COUNT + 1
              exact ⟨fun _ => by omega, fun _ => rfl⟩
            · exact fun _ => rfl
          · rw [if_neg hc]
            have hfe : st.finalEnabled = false := by
              cases hb : st.finalEnabled
              · rfl
              · exact absurd (ih3.mp hb) (by omega)
            refine ⟨?_, ?_, ?_, ?_⟩
            · show 1 ≤ st.current + 1
              omega
            · show st.current + 1 ≤ CLUE_COUNT + 1
              omega
            · show st.finalEnabled = true ↔ st.current + 1 = CLUE_COUNT + 1
              rw [hfe]
              exact ⟨fun hff => Bool.noConfusion hff,
                fun hpl => absurd hpl (by omega)⟩
            · show st.solved = true → st.finalEnabled = true
              intro hs
              exact absurd (ih3.mp (ih4 hs)) (by omega)
        · rw [if_neg heq]
          exact ⟨ih1, ih2, ih3, ih4⟩
    | submitFinalStep =>
      show 1 ≤ (submitFinal clues st).1.current ∧
        (submitFinal clues st).1.current ≤ CLUE_COUNT + 1 ∧
        ((submitFinal clues st).1.finalEnabled = true ↔
          (submitFinal clues st).1.current = CLUE_COUNT + 1) ∧
        ((submitFinal clues st).1.solved = true →
          (submitFinal clues st).1.finalEnabled = true)
      simp only [submitFinal, finalActive]
      cases hb : st.finalEnabled with
      | false =>
        rw [if_neg (by simp)]
        exact ⟨ih1, ih2, ih3, ih4⟩
      | true =>
        rw [if_pos rfl]
        by_cases hm : norm st.finalVal = norm (String.intercalate "-" clues)
        · rw [if_pos hm]
          exact ⟨ih1, ih2, ⟨fun _ => ih3.mp hb, fun _ => rfl⟩, fun _ => rfl⟩
        · rw [if_neg hm]
          exact ⟨ih1, ih2, ih3, ih4⟩

/-- Claim C7: in every reachable state the step counter lies in `[1, 11]`
and passes 10 only by the single transition into the final phase (the
final phase is enabled exactly when the counter is 11); while still
playing (counter at most 10) a final submission does nothing — it cannot
succeed and the success state cannot already hold. -/
theorem C7_no_early_final (clues : List String) (st : GameState)
    (hlen : clues.length = CLUE_COUNT) (h : Reachable clues st) :
    (1 ≤ st.current ∧ st.current ≤ CLUE_COUNT + 1) ∧
      (st.finalEnabled = true ↔ st.current = CLUE_COUNT + 1) ∧
      (st.current ≤ CLUE_COUNT →
        stepEv clues st Event.submitFinalStep = (st, Signal.quiet) ∧
        st.solved = false) := by
  obtain ⟨h1, h2, h3, h4⟩ := reachable_invariant clues hlen st h
  refine ⟨⟨h1, h2⟩, h3, fun hle => ⟨?_, ?_⟩⟩
  · have hfe : st.finalEnabled = false := by
      cases hb : st.finalEnabled
      · rfl
      · exact absurd (h3.mp hb) (by omega)
    show submitFinal clues st = _
    simp only [submitFinal, finalActive]
    rw [if_neg (by simp [hfe])]
  · cases hs : st.solved
    · rfl
    · exact absurd (h3.mp (h4 hs)) (by omega)

/-- Witness for C7 at the initial state with ten clue words. -/
theorem C7_no_early_final_witness :
    (1 ≤ initState.current ∧ initState.current ≤ CLUE_COUNT + 1) ∧
      (initState.finalEnabled = true ↔ initState.current = CLUE_COUNT + 1) ∧
      (initState.current ≤ CLUE_COUNT →
        stepEv (List.replicate 10 "ALPHA") initState Event.submitFinalStep =
          (initState, Signal.quiet) ∧
        initState.solved = false) :=
  C7_no_early_final (List.replicate 10 "ALPHA") initState (by decide)
    Reachable.init

/-! ## Claim C9: idempotence of normalisation -/

theorem uint32_toNat_le {a b : UInt32} (h : a ≤ b) : a.toNat ≤ b.toNat := by
  rw [UInt32.le_def, BitVec.le_def] at h
  exact h

theorem keepChar_bounds (c : Char) (h : keepChar c = true) :
    45 ≤ c.toNat ∧ c.toNat ≤ 122 := by
  simp only [keepChar, Char.isAlpha, Char.isUpper, Char.isLower, Char.isDigit,
    Bool.or_eq_true, decide_eq_true_eq, Bool.and_eq_true] at h
  have hv : c.toNat = c.val.toNat := rfl
  rcases h with ((⟨ha1, ha2⟩ | ⟨ha1, ha2⟩) | ⟨ha1, ha2⟩) | ha1
  · have g1 := uint32_toNat_le ha1
    have g2 := uint32_toNat_le ha2
    have e1 : (65 : UInt32).toNat = 65 := rfl
    have e2 : (90 : UInt32).toNat = 90 := rfl
    omega
  · have g1 := uint32_toNat_le ha1
    have g2 := uint32_toNat_le ha2
    have e1 : (97 : UInt32).toNat = 97 := rfl
    have e2 : (122 : UInt32).toNat = 122 := rfl
    omega
  · have g1 := uint32_toNat_le ha1
    have g2 := uint32_toNat_le ha2
    have e1 : (48 : UInt32).toNat = 48 := rfl
    have e2 : (57 : UInt32).toNat = 57 := rfl
    omega
  · subst ha1
    constructor <;> decide

theorem keepChar_toUpper (c : Char) (h : keepChar c = true) :
    keepChar c.toUpper = true ∧ c.toUpper.toUpper = c.toUpper := by
  obtain ⟨hb1, hb2⟩ := keepChar_bounds c h
  rw [← Char.ofNat_toNat c] at h ⊢
  generalize c.toNat = n at hb1 hb2 h
  revert h
  interval_cases n <;> decide

/-- Claim C9: `norm` is idempotent — normalising an already-normalised
string changes nothing, since every kept character is mapped to an
uppercase form that is again kept and fixed by uppercasing. -/
theorem C9_norm_idempotent (s : String) : norm (norm s) = norm s := by
  unfold norm
  have hdata : (String.mk ((s.toList.filter keepChar).map Char.toUpper)).toList
      = (s.toList.filter keepChar).map Char.toUpper := rfl
  rw [hdata]
  have hkeep : ∀ u ∈ (s.toList.filter keepChar).map Char.toUpper,
      keepChar u = true := by
    intro u hu
    obtain ⟨c, hc, rfl⟩ := List.mem_map.mp hu
    exact (keepChar_toUpper c (List.of_mem_filter hc)).1
  rw [List.filter_eq_self.mpr hkeep]
  congr 1
  rw [List.map_map]
  apply List.map_congr_left
  intro c hc
  exact (keepChar_toUpper c (List.of_mem_filter hc)).2

/-! ## Claim C10: overlapping placements, last write wins -/

theorem placeCells_frame (chars : List Char) (start : ℕ) :
    ∀ (js : List ℕ) (x : ℕ) (g g' : Grid) (xf : ℕ),
      placeCells chars start js x g = some (g', xf) →
      ∀ c : ℕ, (∀ j ∈ js, start + j ≠ c) →
      g'.get? c = g.get? c := by
  intro js
  induction js with
  | nil =>
    intro x g g' xf h c _
    simp only [placeCells, Option.some.injEq, Prod.mk.injEq] at h
    rw [← h.1]
  | cons j js ih =>
    intro x g g' xf h c hc
    cases hg : g.get? (start + j) with
    | none =>
      simp only [placeCells, hg] at h
      exact Option.noConfusion h
    | some cell =>
      simp only [placeCells, hg] at h
      rw [ih _ _ _ _ h c fun j' hj' => hc j' (List.mem_cons_of_mem _ hj')]
      exact List.get?_set_ne _ _ (hc j (List.mem_cons_self _ _))

theorem placeCells_value (chars : List Char) (start : ℕ) :
    ∀ (n j0 x : ℕ) (g g' : Grid) (xf : ℕ),
      placeCells chars start (List.range' j0 n) x g = some (g', xf) →
      ∀ k, j0 ≤ k → k < j0 + n → start + k < g.length →
        g'.get? (start + k) =
          some (some (charToken (chars.get? k),
            drawIdx (xsIter x (k - j0 + 1)) 16777215)) := by
  intro n
  induction n with
  | zero =>
    intro j0 x g g' xf h k hk1 hk2 hk3
    omega
  | succ n ih =>
    intro j0 x g g' xf h k hk1 hk2 hklen
    rw [List.range'_succ] at h
    cases hg : g.get? (start + j0) with
    | none =>
      simp only [placeCells, hg] at h
      exact Option.noConfusion h
    | some cell =>
      simp only [placeCells, hg] at h
      by_cases hkj : k = j0
      · subst hkj
        rw [placeCells_frame chars start _ _ _ _ _ h (start + k) ?nc]
        case nc =>
          intro j hj
          obtain ⟨i, hi, rfl⟩ := List.mem_range'.mp hj
          omega
        rw [List.get?_set_eq_of_lt _ hklen]
        have hkk : k - k + 1 = 1 := by omega
        rw [hkk]
        rfl
      · have heq : xsIter (xsStep x) (k - (j0 + 1) + 1) =
            xsIter x (k - j0 + 1) := by
          rw [xsIter_succ_left]
          congr 1
          omega
        rw [ih (j0 + 1) (xsStep x) _ g' xf h k (by omega) (by omega)
          (by rw [List.length_set]; exact hklen), heq]

theorem placeOneWord_destruct (w : String) (x : ℕ) (g : Grid) (e : Entry)
    (g' : Grid) (x' : ℕ) (hx : x < W32) (hg : g.length = totalCells)
    (h : placeOneWord w x g = some (e, g', x')) :
    e = ⟨w, drawIdx (xsStep x) (totalCells - wordLen w), wordLen w⟩ ∧
      x' = stateAfterWord w x ∧
      placeCells w.toList (drawIdx (xsStep x) (totalCells - wordLen w))
        (List.range' 0 (wordLen w)) (xsStep x) g = some (g', x') := by
  obtain ⟨G, hspec, _, hcells⟩ := placeOneWord_spec w x g hx hg
  rw [hspec] at h
  simp only [Option.some.injEq, Prod.mk.injEq] at h
  obtain ⟨he, hG, hx'⟩ := h
  refine ⟨he.symm, hx'.symm, ?_⟩
  rw [hG, hx'] at hcells
  exact hcells

theorem placeOneWord_frame (w : String) (x : ℕ) (g : Grid) (e : Entry)
    (g' : Grid) (x' : ℕ) (hx : x < W32) (hg : g.length = totalCells)
    (h : placeOneWord w x g = some (e, g', x'))
    (c : ℕ) (hc : ¬ covers e c) : g'.get? c = g.get? c := by
  obtain ⟨he, -, hcells⟩ := placeOneWord_destruct w x g e g' x' hx hg h
  subst he
  have hc' : ¬ (drawIdx (xsStep x) (totalCells - wordLen w) ≤ c ∧
      c < drawIdx (xsStep x) (totalCells - wordLen w) + wordLen w) := hc
  simp only [not_and, not_lt] at hc'
  refine placeCells_frame _ _ _ _ _ _ _ hcells c ?_
  intro j hj
  obtain ⟨i, hi, rfl⟩ := List.mem_range'.mp hj
  omega

theorem placeOneWord_value (w : String) (x : ℕ) (g : Grid) (e : Entry)
    (g' : Grid) (x' : ℕ) (hx : x < W32) (hg : g.length = totalCells)
    (h : placeOneWord w x g = some (e, g', x'))
    (c : ℕ) (hcov : covers e c) :
    g'.get? c = some (some (writeAt w x (c - e.start))) := by
  obtain ⟨he, -, hcells⟩ := placeOneWord_destruct w x g e g' x' hx hg h
  subst he
  have hstart : drawIdx (xsStep x) (totalCells - wordLen w) ≤
      totalCells - wordLen w :=
    drawIdx_le _ (le_MAXU_of_lt_W32 (xsStep_lt hx))
  have h6 : wordLen w ≤ 6 := wordLen_le_six w
  obtain ⟨hc1, hc2⟩ := hcov
  have hc1' : drawIdx (xsStep x) (totalCells - wordLen w) ≤ c := hc1
  have hc2' : c < drawIdx (xsStep x) (totalCells - wordLen w) + wordLen w :=
    hc2
  have hcw : drawIdx (xsStep x) (totalCells - wordLen w) +
      (c - drawIdx (xsStep x) (totalCells - wordLen w)) = c := by omega
  have hval := placeCells_value w.toList
    (drawIdx (xsStep x) (totalCells - wordLen w)) (wordLen w) 0 (xsStep x)
    g g' x' hcells (c - drawIdx (xsStep x) (totalCells - wordLen w))
    (by omega) (by omega)
    (by rw [hcw, hg]
        show c < totalCells
        have ht : totalCells = 32 := rfl
        omega)
  rw [hcw] at hval
  show g'.get? c = some (some (writeAt w x
    (c - drawIdx (xsStep x) (totalCells - wordLen w))))
  rw [hval]
  unfold writeAt
  rw [show c - drawIdx (xsStep x) (totalCells - wordLen w) - 0 + 1 =
    c - drawIdx (xsStep x) (totalCells - wordLen w) + 1 from by omega]

theorem placeFrom_destruct (w0 : String) (ws : List String) (x : ℕ)
    (g : Grid) (m : List Entry) (g' : Grid) (xf : ℕ)
    (hx : x < W32) (hg : g.length = totalCells)
    (h : placeFrom ((w0 :: ws).map some) x g = some (m, g', xf)) :
    ∃ g1 m', placeOneWord w0 x g =
        some (⟨w0, drawIdx (xsStep x) (totalCells - wordLen w0),
          wordLen w0⟩, g1, stateAfterWord w0 x) ∧
      g1.length = totalCells ∧
      placeFrom (ws.map some) (stateAfterWord w0 x) g1 = some (m', g', xf) ∧
      m = ⟨w0, drawIdx (xsStep x) (totalCells - wordLen w0), wordLen w0⟩
        :: m' := by
  obtain ⟨G, hspec, hGlen, -⟩ := placeOneWord_spec w0 x g hx hg
  rw [List.map_cons] at h
  simp only [placeFrom, hspec] at h
  cases hrest : placeFrom (ws.map some) (stateAfterWord w0 x) G with
  | none =>
    simp only [hrest] at h
    exact Option.noConfusion h
  | some r =>
    obtain ⟨m', g'', xf'⟩ := r
    simp only [hrest, Option.some.injEq, Prod.mk.injEq] at h
    obtain ⟨h1, h2, h3⟩ := h
    refine ⟨G, m', hspec, hGlen, ?_, h1.symm⟩
    rw [h2, h3] at hrest
    exact hrest

theorem placeFrom_frame (ws : List String) :
    ∀ (x : ℕ) (g : Grid) (m : List Entry) (g' : Grid) (xf c : ℕ),
      x < W32 → g.length = totalCells →
      placeFrom (ws.map some) x g = some (m, g', xf) →
      (∀ e ∈ m, ¬ covers e c) →
      g'.get? c = g.get? c := by
  induction ws with
  | nil =>
    intro x g m g' xf c _ _ h _
    simp only [List.map_nil, placeFrom, Option.some.injEq,
      Prod.mk.injEq] at h
    rw [← h.2.1]
  | cons w0 ws ih =>
    intro x g m g' xf c hx hg h hnc
    obtain ⟨g1, m', hpo, hg1len, hrest, rfl⟩ :=
      placeFrom_destruct w0 ws x g m g' xf hx hg h
    have hx1lt : stateAfterWord w0 x < W32 := xsIter_lt hx _
    rw [ih (stateAfterWord w0 x) g1 m' g' xf c hx1lt hg1len hrest
      (fun e he => hnc e (List.mem_cons_of_mem _ he))]
    exact placeOneWord_frame w0 x g _ g1 (stateAfterWord w0 x) hx hg hpo c
      (hnc _ (List.mem_cons_self _ _))

theorem placeFrom_lastWrite (ws : List String) :
    ∀ (x : ℕ) (g : Grid) (m : List Entry) (g' : Grid) (xf c j : ℕ)
      (w : String) (e : Entry),
      x < W32 → g.length = totalCells →
      placeFrom (ws.map some) x g = some (m, g', xf) →
      ws.get? j = some w → m.get? j = some e → covers e c →
      (∀ k e', m.get? k = some e' → j < k → ¬ covers e' c) →
      g'.get? c =
        some (some (writeAt w (stateBeforeWord ws x j) (c - e.start))) := by
  induction ws with
  | nil =>
    intro x g m g' xf c j w e _ _ _ hw
    exact absurd hw (by simp)
  | cons w0 ws ih =>
    intro x g m g' xf c j w e hx hg h hw he hcov hlast
    obtain ⟨g1, m', hpo, hg1len, hrest, rfl⟩ :=
      placeFrom_destruct w0 ws x g m g' xf hx hg h
    have hx1lt : stateAfterWord w0 x < W32 := xsIter_lt hx _
    cases j with
    | zero =>
      injection hw with hw
      injection he with he
      subst hw
      subst he
      have hframe : g'.get? c = g1.get? c := by
        refine placeFrom_frame ws (stateAfterWord w0 x) g1 m' g' xf c
          hx1lt hg1len hrest ?_
        intro e' he'
        obtain ⟨k', hk'⟩ := List.mem_iff_get?.mp he'
        exact hlast (k' + 1) e' hk' (by omega)
      rw [hframe, stateBeforeWord_zero]
      exact placeOneWord_value w0 x g _ g1 (stateAfterWord w0 x) hx hg hpo
        c hcov
    | succ j =>
      have hres := ih (stateAfterWord w0 x) g1 m' g' xf c j w e hx1lt
        hg1len hrest hw he hcov
        (fun k e' hk hjk => hlast (k + 1) e' hk (by omega))
      rw [hres, stateBeforeWord_succ]

/-- Claim C10: the grid placement engine does not prevent overlaps — two
mapping entries can have intersecting cell ranges (hypotheses `hci`, `hcj`
below exhibit indices `i < j` both covering cell `c`) — and on every cell
covered by two words the write of the later word in selection order is the
one that survives: the final grid holds exactly the token and colour that
word `j`'s processing wrote at that cell, so the earlier word's letter
there is lost. -/
theorem C10_overlap_last_write_wins (ws : List String) (x : ℕ)
    (m : List Entry) (g : Grid) (xf c i j : ℕ) (wi wj : String)
    (ei ej : Entry)
    (hx : x < W32)
    (hp : placeFrom (ws.map some) x grid0 = some (m, g, xf))
    (hij : i < j)
    (hwi : ws.get? i = some wi) (hei : m.get? i = some ei)
    (hwj : ws.get? j = some wj) (hej : m.get? j = some ej)
    (hci : covers ei c) (hcj : covers ej c)
    (hlast : ∀ k e', m.get? k = some e' → j < k → ¬ covers e' c) :
    g.get? c =
      some (some (writeAt wj (stateBeforeWord ws x j) (c - ej.start))) :=
  placeFrom_lastWrite ws x grid0 m g xf c j wj ej hx
    (by unfold grid0; simp [totalCells]) hp hwj hej hcj hlast

/-- Witness for C10: from PRNG state `1`, `"ALPHA"` is placed on cells
`[0,5)` and `"BRAVO"` on cells `[3,8)`; they share cell 3, and the final
grid holds `"BRAVO"`'s first letter and colour there. -/
theorem C10_overlap_last_write_wins_witness :
    ∃ m g xf, placeFrom (["ALPHA", "BRAVO"].map some) 1 grid0 =
        some (m, g, xf) ∧
      g.get? 3 =
        some (some (writeAt "BRAVO" (stateBeforeWord ["ALPHA", "BRAVO"] 1 1)
          (3 - 3))) := by
  obtain ⟨m, g, xf, hp, hm, hglen, hformula⟩ :=
    placeFrom_spec ["ALPHA", "BRAVO"] 1 grid0 (by decide)
      (by unfold grid0; simp [totalCells])
  have he0 : m.get? 0 = some ⟨"ALPHA", 0, 5⟩ := by
    rw [hformula 0 (by decide)]
    decide
  have he1 : m.get? 1 = some ⟨"BRAVO", 3, 5⟩ := by
    rw [hformula 1 (by decide)]
    decide
  refine ⟨m, g, xf, hp, ?_⟩
  have hlast : ∀ k e', m.get? k = some e' → 1 < k → ¬ covers e' 3 := by
    intro k e' hk hlt
    rw [List.get?_eq_none.mpr (by simp at hm; omega)] at hk
    exact Option.noConfusion hk
  have := C10_overlap_last_write_wins ["ALPHA", "BRAVO"] 1 m g xf 3 0 1
    "ALPHA" "BRAVO" ⟨"ALPHA", 0, 5⟩ ⟨"BRAVO", 3, 5⟩ (by decide) hp
    (by decide) (by decide) he0 (by decide) he1
    (by decide) (by decide) hlast
  exact this

/-- Witness for C3 (amended) at PRNG state `1`. -/
theorem C3_selection_amended_witness :
    (selectClues CLUE_COUNT 1).1.length = CLUE_COUNT ∧
      (selectClues CLUE_COUNT 1).2 = xsIter 1 CLUE_COUNT ∧
      (∀ i, i < CLUE_COUNT →
        (selectClues CLUE_COUNT 1).1.get? i =
          some (WORDS.get? (drawIdx (xsIter 1 (i + 1)) WORDS.length))) ∧
      ∀ o ∈ (selectClues CLUE_COUNT 1).1, ∃ w, w ∈ WORDS ∧ o = some w :=
  C3_selection_amended 1 (by decide) (by decide)

end ClueHunt
